import Mathlib

/-
Verification of the Sevaflow-V2 photo-editing application's state and
marshaling layer: the data-URL encoder/decoder (`fileToPart`,
`dataURLtoFile`), the response validator (`handleApiResponse`), the
per-image history model (`addImageToHistory`, undo/redo/reset) and the
sequential batch controller (`handleApplyBatchOperation`).

JavaScript strings are modelled as `List Char`, binary payloads as
`List Nat` (byte values), thrown exceptions as `Option`/`Except`.
Web-platform primitives used by the code (`String.prototype.split`,
the regex `:(.*?);`, `atob`, `FileReader.readAsDataURL`) are modelled
after their standard semantics.
-/

/-- JS array/string indexed access `l[i]` for a possibly negative index:
`undefined` (none) for a negative or out-of-range index. -/
def listGet? {α : Type} : List α → Nat → Option α
  | [], _ => none
  | a :: _, 0 => some a
  | _ :: l, n + 1 => listGet? l n

/-- Functional update of a list at an index; out-of-range indices leave the
list unchanged (models `newImages[index] = x` after a bounds check). -/
def listSet {α : Type} : List α → Nat → α → List α
  | [], _, _ => []
  | _ :: l, 0, b => b :: l
  | a :: l, n + 1, b => a :: listSet l n b

/-- JS `l[i]` with a JS number index: negative indices yield `undefined`. -/
def jsGetElem {α : Type} (l : List α) (i : Int) : Option α :=
  if i < 0 then none else listGet? l i.toNat

/-- JS `Array.prototype.slice(0, e)`: a negative end counts from the end of
the array, and the end is clamped to the array length. -/
def jsSliceTo {α : Type} (l : List α) (e : Int) : List α :=
  if e < 0 then l.take ((l.length : Int) + e).toNat else l.take e.toNat

/-- JS `String.prototype.split(',')`: the list of comma-separated segments
(`""₊.split(',') = [""]`, so the result is never empty). -/
def splitOnComma : List Char → List (List Char)
  | [] => [[]]
  | c :: cs =>
    if c = ',' then [] :: splitOnComma cs
    else
      match splitOnComma cs with
      | [] => [[c]]
      | s :: rest => (c :: s) :: rest

/-- Characters that the JS regex `.` does not match (line terminators). -/
def isRegexLineTerminator (c : Char) : Bool :=
  c.toNat = 10 || c.toNat = 13 || c.toNat = 8232 || c.toNat = 8233

/-- Lazy scan of `(.*?);` from a fixed start: the characters before the
first `';'`, failing if a line terminator or the end of input is reached
first. -/
def scanMimeGroup : List Char → Option (List Char)
  | [] => none
  | c :: cs =>
    if c = ';' then some []
    else if isRegexLineTerminator c then none
    else (scanMimeGroup cs).map (c :: ·)

/-- The JS regex match `s.match(/:(.*?);/)`, first capture group: the text
between the first `':'` from which a `';'` is reachable and that `';'`. -/
def matchMime : List Char → Option (List Char)
  | [] => none
  | c :: cs =>
    if c = ':' then
      match scanMimeGroup cs with
      | some g => some g
      | none => matchMime cs
    else matchMime cs

/-- The double-quote character. -/
def dquoteChar : Char := Char.ofNat 34

/-- The single-quote character. -/
def squoteChar : Char := Char.ofNat 39

/-- The space character. -/
def spaceChar : Char := Char.ofNat 32

/-- The `'='` base64 padding character. -/
def padChar : Char := Char.ofNat 61

/-- Code points treated as whitespace by JS `String.prototype.trim`. -/
def jsWhitespaceCodes : List Nat :=
  [9, 10, 11, 12, 13, 32, 160, 5760, 8192, 8193, 8194, 8195, 8196, 8197,
   8198, 8199, 8200, 8201, 8202, 8232, 8233, 8239, 8287, 12288, 65279]

/-- Whether a character is JS-trim whitespace. -/
def jsIsWhitespace (c : Char) : Bool := jsWhitespaceCodes.contains c.toNat

/-- JS `String.prototype.trim`: strip leading and trailing whitespace. -/
def jsTrim (l : List Char) : List Char :=
  ((l.dropWhile jsIsWhitespace).reverse.dropWhile jsIsWhitespace).reverse

/-- ASCII whitespace stripped by the forgiving-base64 decoder (`atob`). -/
def isAsciiWhitespace (c : Char) : Bool :=
  c.toNat = 9 || c.toNat = 10 || c.toNat = 12 || c.toNat = 13 || c.toNat = 32

/-- The base64 alphabet, in value order. -/
def base64Chars : List Char :=
  (List.range 26).map (fun i => Char.ofNat (65 + i)) ++
  (List.range 26).map (fun i => Char.ofNat (97 + i)) ++
  (List.range 10).map (fun i => Char.ofNat (48 + i)) ++
  [Char.ofNat 43, Char.ofNat 47]

/-- The base64 digit for a sextet value. -/
def charOfSextet (n : Nat) : Char := base64Chars.getD n (Char.ofNat 65)

/-- The sextet value of a base64 digit, `none` for a non-alphabet char. -/
def sextetOfChar (c : Char) : Option Nat :=
  let i := base64Chars.indexOf c
  if i < 64 then some i else none

/-- Big-endian 6-bit groups of a byte sequence (bytes taken three at a
time; a trailing byte yields two sextets, two trailing bytes three). -/
def sextetsOfBytes : List Nat → List Nat
  | a :: b :: c :: rest =>
    (a / 4) :: ((a % 4) * 16 + b / 16) :: ((b % 16) * 4 + c / 64) ::
      (c % 64) :: sextetsOfBytes rest
  | [a, b] => [a / 4, (a % 4) * 16 + b / 16, (b % 16) * 4]
  | [a] => [a / 4, (a % 4) * 16]
  | [] => []

/-- Reassemble bytes from 6-bit groups, discarding leftover bits of a
trailing group of two or three sextets (forgiving-base64 decode). -/
def bytesOfSextets : List Nat → List Nat
  | w :: x :: y :: z :: rest =>
    (w * 4 + x / 16) :: ((x % 16) * 16 + y / 4) :: ((y % 4) * 64 + z) ::
      bytesOfSextets rest
  | [w, x, y] => [w * 4 + x / 16, (x % 16) * 16 + y / 4]
  | [w, x] => [w * 4 + x / 16]
  | _ => []

/-- Standard (btoa / FileReader) base64 encoding of a byte list, padded
with `'='` to a multiple of four digits. -/
def base64Encode (bytes : List Nat) : List Char :=
  (sextetsOfBytes bytes).map charOfSextet ++
    (if bytes.length % 3 = 1 then [padChar, padChar]
     else if bytes.length % 3 = 2 then [padChar] else [])

/-- Option-valued traversal used by the decoder: `none` as soon as `f`
fails on an element. -/
def mapOption {α β : Type} (f : α → Option β) : List α → Option (List β)
  | [] => some []
  | a :: as =>
    match f a with
    | none => none
    | some b => (mapOption f as).map (b :: ·)

/-- Forgiving-base64 padding removal: for input of length divisible by
four, up to two trailing `'='` are removed. -/
def stripPadding (l : List Char) : List Char :=
  if l.length % 4 = 0 then
    match l.reverse with
    | c1 :: c2 :: rest =>
      if c1 = padChar then
        (if c2 = padChar then rest.reverse else (c2 :: rest).reverse)
      else l
    | [c1] => if c1 = padChar then [] else l
    | [] => l
  else l

/-- JS `atob`: forgiving-base64 decode. Strips ASCII whitespace, then up
to two `'='` of padding; fails when the remaining length is `1 mod 4` or
when a character is outside the base64 alphabet. -/
def atob (input : List Char) : Option (List Nat) :=
  let data := input.filter (fun c => !isAsciiWhitespace c)
  let data2 := stripPadding data
  if data2.length % 4 = 1 then none
  else
    match mapOption sextetOfChar data2 with
    | none => none
    | some sextets => some (bytesOfSextets sextets)

/-- An image resource: a named binary blob with a mime type
(the model of a JS `File`). -/
structure File where
  name : List Char
  mime : List Char
  bytes : List Nat
deriving DecidableEq, Repr

/-- The wire part produced by `fileToPart`: `{ mimeType, data }` with the
payload already base64 encoded. -/
structure InlinePart where
  mimeType : List Char
  data : List Char
deriving DecidableEq, Repr

/-- The literal `data:` head of a data URL. -/
def dataColonHead : List Char := ['d', 'a', 't', 'a', ':']

/-- The literal `;base64,` marker of a data URL. -/
def base64Marker : List Char := [';', 'b', 'a', 's', 'e', '6', '4', ',']

/-- Browser `FileReader.readAsDataURL` for a file whose type is its mime
field: `data:<mime>;base64,<base64 payload>`. -/
def readAsDataURL (f : File) : List Char :=
  dataColonHead ++ f.mime ++ base64Marker ++ base64Encode f.bytes

/-- `fileToPart` (geminiService): read the file as a data URL, split on
`','`, parse the mime type with `:(.*?);`, and return
`{ mimeType, data }`; `none` models the thrown `Error` on a malformed
data URL or unparseable mime type. -/
def fileToPart (f : File) : Option InlinePart :=
  let dataUrl := readAsDataURL f
  match splitOnComma dataUrl with
  | a0 :: a1 :: _ =>
    (match matchMime a0 with
     | some m => if m.isEmpty then none else some { mimeType := m, data := a1 }
     | none => none)
  | _ => none

/-- `dataURLtoFile` (App): split on `','`, parse the mime with
`:(.*?);`, `atob` the second segment, and build a `File`; `none` models
the thrown `Error` on malformed input. -/
def dataURLtoFile (dataurl : List Char) (filename : List Char) : Option File :=
  match splitOnComma dataurl with
  | a0 :: a1 :: _ =>
    (match matchMime a0 with
     | some m =>
        if m.isEmpty then none
        else (atob a1).map fun bs => { name := filename, mime := m, bytes := bs }
     | none => none)
  | _ => none

/-- Inline image payload inside a response part. -/
structure InlineData where
  mimeType : List Char
  data : List Char
deriving DecidableEq, Repr

/-- A response part; the validator only inspects `inlineData`. -/
structure RespPart where
  inlineData : Option InlineData
deriving DecidableEq, Repr

/-- A candidate's content: an optional list of parts. -/
structure Content where
  parts : Option (List RespPart)
deriving DecidableEq, Repr

/-- A response candidate: optional content and finish reason. -/
structure Candidate where
  content : Option Content
  finishReason : Option (List Char)
deriving DecidableEq, Repr

/-- Pre-generation prompt feedback: optional block reason and detail. -/
structure PromptFeedback where
  blockReason : Option (List Char)
  blockReasonMessage : Option (List Char)
deriving DecidableEq, Repr

/-- A `GenerateContentResponse`: prompt feedback, candidates, and the
SDK's aggregated `text` accessor (external to the repository). -/
structure GenerateContentResponse where
  promptFeedback : Option PromptFeedback
  candidates : Option (List Candidate)
  text : Option (List Char)
deriving DecidableEq, Repr

/-- JS truthiness of an optional string: present and nonempty. -/
def optStrTruthy : Option (List Char) → Bool
  | some s => !s.isEmpty
  | none => false

/-- The failures `handleApiResponse` can throw. -/
inductive ApiFailure where
  | blocked (reason : List Char) (message : Option (List Char))
  | refused (finishReason : List Char)
  | noImage (textFeedback : Option (List Char))
deriving DecidableEq, Repr

/-- `response.promptFeedback?.blockReason`. -/
def blockReasonOf (r : GenerateContentResponse) : Option (List Char) :=
  r.promptFeedback.bind PromptFeedback.blockReason

/-- `response.promptFeedback?.blockReasonMessage`. -/
def blockMessageOf (r : GenerateContentResponse) : Option (List Char) :=
  r.promptFeedback.bind PromptFeedback.blockReasonMessage

/-- `response.candidates?.[0]`. -/
def firstCandidate (r : GenerateContentResponse) : Option Candidate :=
  r.candidates.bind List.head?

/-- `response.candidates?.[0]?.content?.parts`. -/
def firstCandidateParts (r : GenerateContentResponse) : Option (List RespPart) :=
  ((firstCandidate r).bind Candidate.content).bind Content.parts

/-- `response.candidates?.[0]?.content?.parts?.find(part => part.inlineData)`. -/
def imagePartFromResponse (r : GenerateContentResponse) : Option RespPart :=
  (firstCandidateParts r).bind (List.find? fun p => p.inlineData.isSome)

/-- `response.candidates?.[0]?.finishReason`. -/
def finishReasonOf (r : GenerateContentResponse) : Option (List Char) :=
  (firstCandidate r).bind Candidate.finishReason

/-- The string `"STOP"`. -/
def stopStr : List Char := ['S', 'T', 'O', 'P']

/-- The condition `finishReason && finishReason !== 'STOP'`. -/
def finishReasonBad : Option (List Char) → Bool
  | some s => !s.isEmpty && !(s = stopStr)
  | none => false

/-- The returned data URL string `data:<mime>;base64,<data>`. -/
def mkDataUrl (mimeType data : List Char) : List Char :=
  dataColonHead ++ mimeType ++ base64Marker ++ data

/-- The trimmed `response.text?.trim()` feedback, kept when truthy. -/
def textFeedbackOf (r : GenerateContentResponse) : Option (List Char) :=
  match r.text with
  | some t => (fun tt => if tt.isEmpty then none else some tt) (jsTrim t)
  | none => none

/-- `handleApiResponse` (geminiService): blocked-prompt check, then
first-candidate inline-image extraction, then non-`STOP` finish reason,
then the generic no-image failure. -/
def handleApiResponse (r : GenerateContentResponse) :
    Except ApiFailure (List Char) :=
  if optStrTruthy (blockReasonOf r) then
    .error (.blocked ((blockReasonOf r).getD []) (blockMessageOf r))
  else
    match (imagePartFromResponse r).bind RespPart.inlineData with
    | some d => .ok (mkDataUrl d.mimeType d.data)
    | none =>
      if finishReasonBad (finishReasonOf r) then
        .error (.refused ((finishReasonOf r).getD []))
      else
        .error (.noImage (textFeedbackOf r))

/-- Per-image editing state: the original upload, the linear history of
accepted versions, and the cursor (a JS number, so modelled as `Int`). -/
structure ImageState where
  original : File
  history : List File
  historyIndex : Int
deriving DecidableEq, Repr

/-- The state `handleImageUpload` creates for one uploaded file:
single-entry history with the cursor at 0. -/
def initImageState (f : File) : ImageState :=
  { original := f, history := [f], historyIndex := 0 }

/-- The update `addImageToHistory` performs on the targeted image:
`history.slice(0, historyIndex + 1)` with the new file pushed, and the
cursor moved to the new last index. -/
def appendToState (s : ImageState) (f : File) : ImageState :=
  let newHistory := jsSliceTo s.history (s.historyIndex + 1) ++ [f]
  { s with history := newHistory,
           historyIndex := (newHistory.length : Int) - 1 }

/-- `addImageToHistory(newImageFile, index)`: unchanged when the target is
missing, otherwise the target entry is replaced by `appendToState`. -/
def addImageToHistory (prevImages : List ImageState) (newImageFile : File)
    (index : Int) : List ImageState :=
  match jsGetElem prevImages index with
  | none => prevImages
  | some targetImage =>
      listSet prevImages index.toNat (appendToState targetImage newImageFile)

/-- The per-image effect of `handleUndo`: guarded by
`canUndo = historyIndex > 0`, it moves the cursor back by one. -/
def undoState (s : ImageState) : ImageState :=
  if 0 < s.historyIndex then { s with historyIndex := s.historyIndex - 1 }
  else s

/-- The per-image effect of `handleRedo`: guarded by
`canRedo = historyIndex < history.length - 1`, it moves the cursor
forward by one. -/
def redoState (s : ImageState) : ImageState :=
  if s.historyIndex < (s.history.length : Int) - 1 then
    { s with historyIndex := s.historyIndex + 1 }
  else s

/-- The per-image effect of `handleReset`: the cursor returns to 0 and the
history list is kept. -/
def resetState (s : ImageState) : ImageState := { s with historyIndex := 0 }

/-- `handleRedo` applied `k` times. -/
def redoN : Nat → ImageState → ImageState
  | 0, s => s
  | k + 1, s => redoN k (redoState s)

/-- One user action on a single image's history. -/
inductive HistOp where
  | append (f : File)
  | undo
  | redo
deriving DecidableEq, Repr

/-- Apply one history action. -/
def applyHistOp (s : ImageState) : HistOp → ImageState
  | .append f => appendToState s f
  | .undo => undoState s
  | .redo => redoState s

/-- Apply a sequence of history actions in order. -/
def runHistOps (s : ImageState) (ops : List HistOp) : ImageState :=
  ops.foldl applyHistOp s

/-- The history invariant: the cursor is a valid index into the history. -/
def HistInv (s : ImageState) : Prop :=
  0 ≤ s.historyIndex ∧ s.historyIndex < (s.history.length : Int)

instance (s : ImageState) : Decidable (HistInv s) := by
  unfold HistInv; infer_instance

/-- How `handleApplyBatchOperation` ends: the fail-fast no-target error,
a rejected remote operation, an undecodable result URL, or the caught
TypeError of a stale lookup. -/
inductive BatchFailure where
  | noTarget
  | opFailed (e : List Char)
  | decodeFailed
  | lookupFailed
deriving DecidableEq, Repr

/-- The target index list of the batch controller: every index when
"apply to all", else only the active index. -/
def batchTargets (images : List ImageState) (activeImageIndex : Int)
    (applyToAll : Bool) : List Int :=
  if applyToAll then (List.range images.length).map Int.ofNat
  else [activeImageIndex]

/-- The sequential `for` loop of `handleApplyBatchOperation`.
`images0` is the images array captured by the callback closure (reads use
this stale snapshot), `cur` the evolving state updated through
`addImageToHistory`, `i` the loop counter (the remote operation is indexed
by it to model the non-determinism of successive calls, and `names i` is
the fresh `Date.now()`-derived filename of step `i`).  A missing current
image skips the target (`continue`); a rejected operation or a decode
failure is caught and halts the loop with the already-applied updates
kept. -/
def batchLoop (images0 : List ImageState)
    (op : Nat → File → List Char → Except (List Char) (List Char))
    (names : Nat → List Char) (prompt : List Char) :
    List Int → Nat → List ImageState → List ImageState × Option BatchFailure
  | [], _, cur => (cur, none)
  | t :: rest, i, cur =>
    match jsGetElem images0 t with
    | none => (cur, some .lookupFailed)
    | some imageState =>
      match jsGetElem imageState.history imageState.historyIndex with
      | none => batchLoop images0 op names prompt rest (i + 1) cur
      | some imageToProcess =>
        match op i imageToProcess prompt with
        | .error e => (cur, some (.opFailed e))
        | .ok resultUrl =>
          match dataURLtoFile resultUrl (names i) with
          | none => (cur, some .decodeFailed)
          | some newImageFile =>
              batchLoop images0 op names prompt rest (i + 1)
                (addImageToHistory cur newImageFile t)

/-- `handleApplyBatchOperation`: builds the target list, fails fast when
some target index is negative or has no image, and otherwise runs the
sequential loop starting from the captured images array. -/
def handleApplyBatchOperation (images : List ImageState)
    (activeImageIndex : Int)
    (op : Nat → File → List Char → Except (List Char) (List Char))
    (names : Nat → List Char) (prompt : List Char) (applyToAll : Bool) :
    List ImageState × Option BatchFailure :=
  let targets := batchTargets images activeImageIndex applyToAll
  if targets.any (fun i => decide (i < 0) || (jsGetElem images i).isNone) then
    (images, some .noTarget)
  else
    batchLoop images op names prompt targets 0 images

/-- The four fixed contexts of `generateRandomPrompt`. -/
inductive PromptContext where
  | retouch
  | filter
  | adjustment
  | background
deriving DecidableEq, Repr

/-- The failures of `generateRandomPrompt` (each surfaced to the caller
wrapped in the catch-all suggestion failure message). -/
inductive SuggestionFailure where
  | emptySuggestion
  | missingText
deriving DecidableEq, Repr

/-- Strip every double and single quote: `replace(/["']/g, "")`. -/
def stripQuotes (l : List Char) : List Char :=
  l.filter (fun c => !(c = dquoteChar || c = squoteChar))

/-- `generateRandomPrompt` (geminiService), with the remote text-only
capability abstracted by the optional text of its response: the response
text is trimmed, then quotes are stripped, and an empty result raises the
empty-suggestion error; an absent text field raises the caught TypeError.
The context tag only selects the instruction string sent to the remote
service, so it does not affect this result. -/
def generateRandomPrompt (context : PromptContext)
    (responseText : Option (List Char)) :
    Except SuggestionFailure (List Char) :=
  match context, responseText with
  | _, none => .error .missingText
  | _, some t =>
    let text := stripQuotes (jsTrim t)
    if text.isEmpty then .error .emptySuggestion else .ok text

theorem listGet?_mem {α : Type} {l : List α} {n : Nat} {x : α}
    (h : listGet? l n = some x) : x ∈ l := by
  induction l generalizing n with
  | nil => simp [listGet?] at h
  | cons a l ih =>
    cases n with
    | zero => simp [listGet?] at h; simp [h]
    | succ n => exact List.mem_cons_of_mem a (ih h)

theorem listGet?_of_mem {α : Type} {l : List α} {x : α} (h : x ∈ l) :
    ∃ n, listGet? l n = some x := by
  induction l with
  | nil => simp at h
  | cons a l ih =>
    rcases List.mem_cons.mp h with rfl | h'
    · exact ⟨0, rfl⟩
    · obtain ⟨n, hn⟩ := ih h'
      exact ⟨n + 1, hn⟩

theorem listGet?_lt_length {α : Type} {l : List α} {n : Nat} {x : α}
    (h : listGet? l n = some x) : n < l.length := by
  induction l generalizing n with
  | nil => simp [listGet?] at h
  | cons a l ih =>
    cases n with
    | zero => simp
    | succ n => exact Nat.succ_lt_succ (ih h)

theorem listGet?_some_of_lt {α : Type} {l : List α} {n : Nat}
    (h : n < l.length) : ∃ x, listGet? l n = some x := by
  induction l generalizing n with
  | nil => simp at h
  | cons a l ih =>
    cases n with
    | zero => exact ⟨a, rfl⟩
    | succ n => exact ih (Nat.lt_of_succ_lt_succ h)

theorem listGet?_set_self {α : Type} {l : List α} {n : Nat} (b : α)
    (h : n < l.length) : listGet? (listSet l n b) n = some b := by
  induction l generalizing n with
  | nil => simp at h
  | cons a l ih =>
    cases n with
    | zero => rfl
    | succ n => exact ih (Nat.lt_of_succ_lt_succ h)

theorem listGet?_set_ne {α : Type} (l : List α) (n m : Nat) (b : α)
    (h : n ≠ m) : listGet? (listSet l n b) m = listGet? l m := by
  induction l generalizing n m with
  | nil => cases n <;> rfl
  | cons a l ih =>
    cases n with
    | zero => cases m with
      | zero => exact absurd rfl h
      | succ m => rfl
    | succ n =>
      cases m with
      | zero => rfl
      | succ m => exact ih n m (fun hc => h (congrArg Nat.succ hc))

theorem listGet?_take {α : Type} {l : List α} {n j : Nat} (h : j < n) :
    listGet? (l.take n) j = listGet? l j := by
  induction l generalizing n j with
  | nil => simp
  | cons a l ih =>
    cases n with
    | zero => simp at h
    | succ n =>
      cases j with
      | zero => rfl
      | succ j => exact ih (Nat.lt_of_succ_lt_succ h)

theorem nodup_listGet?_inj {α : Type} {l : List α} (hn : l.Nodup)
    {i j : Nat} {x : α} (hi : listGet? l i = some x)
    (hj : listGet? l j = some x) : i = j := by
  induction l generalizing i j with
  | nil => simp [listGet?] at hi
  | cons a l ih =>
    rcases List.nodup_cons.mp hn with ⟨hna, hnl⟩
    cases i with
    | zero =>
      cases j with
      | zero => rfl
      | succ j =>
        have hax : a = x := by simpa [listGet?] using hi
        subst hax
        exact absurd (listGet?_mem (show listGet? l j = some a from hj)) hna
    | succ i =>
      cases j with
      | zero =>
        have hax : a = x := by simpa [listGet?] using hj
        subst hax
        exact absurd (listGet?_mem (show listGet? l i = some a from hi)) hna
      | succ j => exact congrArg Nat.succ (ih hnl hi hj)

theorem splitOnComma_ne_nil (l : List Char) : splitOnComma l ≠ [] := by
  induction l with
  | nil => simp [splitOnComma]
  | cons c cs ih =>
    by_cases hc : c = ','
    · simp [splitOnComma, hc]
    · simp only [splitOnComma, if_neg hc]
      cases h : splitOnComma cs with
      | nil => simp
      | cons s rest => simp

theorem splitOnComma_no_comma {l : List Char} (h : ',' ∉ l) :
    splitOnComma l = [l] := by
  induction l with
  | nil => rfl
  | cons c cs ih =>
    have hc : c ≠ ',' := fun hc => h (by simp [hc])
    have hcs : ',' ∉ cs := fun hm => h (List.mem_cons_of_mem c hm)
    simp only [splitOnComma, if_neg hc, ih hcs]

theorem splitOnComma_append {l1 : List Char} (l2 : List Char)
    (h : ',' ∉ l1) : splitOnComma (l1 ++ ',' :: l2) = l1 :: splitOnComma l2 := by
  induction l1 with
  | nil => simp [splitOnComma]
  | cons c cs ih =>
    have hc : c ≠ ',' := fun hc => h (by simp [hc])
    have hcs : ',' ∉ cs := fun hm => h (List.mem_cons_of_mem c hm)
    simp only [List.cons_append, splitOnComma, if_neg hc, List.append_eq,
      ih hcs]

theorem scanMimeGroup_append {g : List Char} (rest : List Char)
    (h : ∀ c ∈ g, c ≠ ';' ∧ isRegexLineTerminator c = false) :
    scanMimeGroup (g ++ ';' :: rest) = some g := by
  induction g with
  | nil => simp [scanMimeGroup]
  | cons c cs ih =>
    obtain ⟨hc, hlt⟩ := h c (by simp)
    have ih2 := ih (fun x hx => h x (List.mem_cons_of_mem c hx))
    simp [scanMimeGroup, hc, hlt, ih2]

theorem matchMime_skip {c : Char} (cs : List Char) (h : c ≠ ':') :
    matchMime (c :: cs) = matchMime cs := by
  simp [matchMime, h]

theorem matchMime_colon {cs g : List Char} (h : scanMimeGroup cs = some g) :
    matchMime (':' :: cs) = some g := by
  simp [matchMime, h]

theorem matchMime_dataHead {rest g : List Char}
    (h : scanMimeGroup rest = some g) :
    matchMime (dataColonHead ++ rest) = some g := by
  show matchMime ('d' :: 'a' :: 't' :: 'a' :: ':' :: rest) = some g
  rw [matchMime_skip _ (by decide), matchMime_skip _ (by decide),
    matchMime_skip _ (by decide), matchMime_skip _ (by decide),
    matchMime_colon h]

theorem base64Chars_length : base64Chars.length = 64 := by decide

theorem sextet_round : ∀ n, n < 64 → sextetOfChar (charOfSextet n) = some n := by
  decide

theorem charOfSextet_lt_ne_pad : ∀ n, n < 64 → charOfSextet n ≠ padChar := by
  decide

theorem charOfSextet_lt_not_ws :
    ∀ n, n < 64 → isAsciiWhitespace (charOfSextet n) = false := by decide

theorem charOfSextet_lt_ne_comma : ∀ n, n < 64 → charOfSextet n ≠ ',' := by
  decide

theorem charOfSextet_big {n : Nat} (h : 64 ≤ n) :
    charOfSextet n = Char.ofNat 65 := by
  unfold charOfSextet
  exact List.getD_eq_default _ _ (base64Chars_length ▸ h)

theorem charOfSextet_ne_pad (n : Nat) : charOfSextet n ≠ padChar := by
  by_cases hn : n < 64
  · exact charOfSextet_lt_ne_pad n hn
  · rw [charOfSextet_big (Nat.le_of_not_lt hn)]; decide

theorem charOfSextet_not_ws (n : Nat) :
    isAsciiWhitespace (charOfSextet n) = false := by
  by_cases hn : n < 64
  · exact charOfSextet_lt_not_ws n hn
  · rw [charOfSextet_big (Nat.le_of_not_lt hn)]; decide

theorem sextetsOfBytes_length (l : List Nat) :
    (sextetsOfBytes l).length = (l.length * 4 + 2) / 3 := by
  induction l using sextetsOfBytes.induct with
  | case1 a b c rest ih =>
    simp only [sextetsOfBytes, List.length_cons, ih]
    omega
  | case2 a b => simp [sextetsOfBytes]
  | case3 a => simp [sextetsOfBytes]
  | case4 => simp [sextetsOfBytes]

theorem sextetsOfBytes_lt {l : List Nat} (h : ∀ b ∈ l, b < 256) :
    ∀ x ∈ sextetsOfBytes l, x < 64 := by
  induction l using sextetsOfBytes.induct with
  | case1 a b c rest ih =>
    have ha := h a (by simp)
    have hb := h b (by simp)
    have hc := h c (by simp)
    have ih2 := ih (fun y hy => h y (by simp [hy]))
    intro x hx
    simp only [sextetsOfBytes, List.mem_cons] at hx
    rcases hx with rfl | rfl | rfl | rfl | hx
    · omega
    · omega
    · omega
    · omega
    · exact ih2 x hx
  | case2 a b =>
    have ha := h a (by simp)
    have hb := h b (by simp)
    intro x hx
    simp only [sextetsOfBytes, List.mem_cons, List.not_mem_nil, or_false] at hx
    rcases hx with rfl | rfl | rfl <;> omega
  | case3 a =>
    have ha := h a (by simp)
    intro x hx
    simp only [sextetsOfBytes, List.mem_cons, List.not_mem_nil, or_false] at hx
    rcases hx with rfl | rfl <;> omega
  | case4 => intro x hx; simp [sextetsOfBytes] at hx

theorem bytes_sextets_round {l : List Nat} (h : ∀ b ∈ l, b < 256) :
    bytesOfSextets (sextetsOfBytes l) = l := by
  induction l using sextetsOfBytes.induct with
  | case1 a b c rest ih =>
    have ha := h a (by simp)
    have hb := h b (by simp)
    have hc := h c (by simp)
    have ih2 := ih (fun y hy => h y (by simp [hy]))
    simp only [sextetsOfBytes, bytesOfSextets, ih2, List.cons.injEq, and_true]
    exact ⟨by omega, by omega, by omega⟩
  | case2 a b =>
    have ha := h a (by simp)
    have hb := h b (by simp)
    simp only [sextetsOfBytes, bytesOfSextets, List.cons.injEq, and_true]
    exact ⟨by omega, by omega⟩
  | case3 a =>
    have ha := h a (by simp)
    simp only [sextetsOfBytes, bytesOfSextets, List.cons.injEq, and_true]
    omega
  | case4 => rfl

theorem mapOption_map_some {s : List Nat} (h : ∀ x ∈ s, x < 64) :
    mapOption sextetOfChar (s.map charOfSextet) = some s := by
  induction s with
  | nil => rfl
  | cons a s ih =>
    have ha := sextet_round a (h a (by simp))
    have ih2 := ih (fun x hx => h x (by simp [hx]))
    simp [mapOption, ha, ih2]

theorem mem_base64Encode {l : List Nat} {c : Char} (h : c ∈ base64Encode l) :
    (∃ n, c = charOfSextet n) ∨ c = padChar := by
  rcases List.mem_append.mp h with hm | hp
  · obtain ⟨n, _, rfl⟩ := List.mem_map.mp hm
    exact Or.inl ⟨n, rfl⟩
  · right
    split at hp
    · simp only [List.mem_cons, List.not_mem_nil, or_false] at hp
      rcases hp with rfl | rfl <;> rfl
    · split at hp
      · simp only [List.mem_cons, List.not_mem_nil, or_false] at hp
        rw [hp]
      · simp at hp

theorem filter_base64Encode (l : List Nat) :
    (base64Encode l).filter (fun c => !isAsciiWhitespace c) = base64Encode l := by
  rw [List.filter_eq_self]
  intro c hc
  rcases mem_base64Encode hc with ⟨n, rfl⟩ | rfl
  · simp [charOfSextet_not_ws n]
  · decide

theorem stripPadding_encode (l : List Nat) :
    stripPadding (base64Encode l) = (sextetsOfBytes l).map charOfSextet := by
  have hslen : (sextetsOfBytes l).length = (l.length * 4 + 2) / 3 :=
    sextetsOfBytes_length l
  have hmlen : ((sextetsOfBytes l).map charOfSextet).length =
      (l.length * 4 + 2) / 3 := by rw [List.length_map, hslen]
  have hmod3 : l.length % 3 = 0 ∨ l.length % 3 = 1 ∨ l.length % 3 = 2 := by
    omega
  rcases hmod3 with h3 | h3 | h3
  · have henc : base64Encode l = (sextetsOfBytes l).map charOfSextet := by
      simp only [base64Encode, h3]
      norm_num
    rw [henc]
    have hmod4 : ((sextetsOfBytes l).map charOfSextet).length % 4 = 0 := by
      rw [hmlen]; omega
    unfold stripPadding
    rw [if_pos hmod4]
    cases hrev : ((sextetsOfBytes l).map charOfSextet).reverse with
    | nil => rfl
    | cons c1 tail =>
      have hc1 : c1 ∈ (sextetsOfBytes l).map charOfSextet := by
        rw [← List.mem_reverse, hrev]; simp
      obtain ⟨n, _, rfl⟩ := List.mem_map.mp hc1
      cases tail with
      | nil => simp [charOfSextet_ne_pad n]
      | cons c2 tail2 => simp [charOfSextet_ne_pad n]
  · have henc : base64Encode l =
        (sextetsOfBytes l).map charOfSextet ++ [padChar, padChar] := by
      simp only [base64Encode, h3]
      norm_num
    rw [henc]
    have hmod4 : ((sextetsOfBytes l).map charOfSextet ++
        [padChar, padChar]).length % 4 = 0 := by
      rw [List.length_append, hmlen]; simp; omega
    have hrev : ((sextetsOfBytes l).map charOfSextet ++
        [padChar, padChar]).reverse =
        padChar :: padChar :: ((sextetsOfBytes l).map charOfSextet).reverse := by
      simp
    unfold stripPadding
    rw [if_pos hmod4, hrev]
    simp
  · have henc : base64Encode l =
        (sextetsOfBytes l).map charOfSextet ++ [padChar] := by
      simp only [base64Encode, h3]
      norm_num
    rw [henc]
    have hmod4 : ((sextetsOfBytes l).map charOfSextet ++
        [padChar]).length % 4 = 0 := by
      rw [List.length_append, hmlen]; simp; omega
    have hmge : 3 ≤ ((sextetsOfBytes l).map charOfSextet).length := by
      rw [hmlen]; omega
    cases hrev : ((sextetsOfBytes l).map charOfSextet).reverse with
    | nil =>
      have hnil : (sextetsOfBytes l).map charOfSextet = [] := by
        simpa using congrArg List.reverse hrev
      rw [hnil] at hmge
      simp at hmge
    | cons c2 tail =>
      have hc2 : c2 ∈ (sextetsOfBytes l).map charOfSextet := by
        rw [← List.mem_reverse, hrev]; simp
      obtain ⟨n, _, hn⟩ := List.mem_map.mp hc2
      have hrevapp : ((sextetsOfBytes l).map charOfSextet ++
          [padChar]).reverse = padChar :: c2 :: tail := by
        simp [hrev]
      have hc2pad : c2 ≠ padChar := hn ▸ charOfSextet_ne_pad n
      unfold stripPadding
      rw [if_pos hmod4, hrevapp]
      simp only [if_pos rfl, if_neg hc2pad]
      rw [show c2 :: tail = ((sextetsOfBytes l).map charOfSextet).reverse
        from hrev.symm]
      simp

theorem atob_base64Encode {l : List Nat} (h : ∀ b ∈ l, b < 256) :
    atob (base64Encode l) = some l := by
  simp only [atob]
  rw [filter_base64Encode, stripPadding_encode]
  have hmlen : ((sextetsOfBytes l).map charOfSextet).length =
      (l.length * 4 + 2) / 3 := by
    rw [List.length_map, sextetsOfBytes_length]
  rw [if_neg (by rw [hmlen]; omega)]
  rw [mapOption_map_some (sextetsOfBytes_lt h)]
  simp [bytes_sextets_round h]

theorem charOfSextet_ne_comma (n : Nat) : charOfSextet n ≠ ',' := by
  by_cases hn : n < 64
  · exact charOfSextet_lt_ne_comma n hn
  · rw [charOfSextet_big (Nat.le_of_not_lt hn)]; decide

theorem base64Encode_no_comma (l : List Nat) : ',' ∉ base64Encode l := by
  intro hc
  rcases mem_base64Encode hc with ⟨n, hn⟩ | hp
  · exact charOfSextet_ne_comma n hn.symm
  · exact absurd hp (by decide)

/-- A mime type the data-URL grammar of the code can carry: nonempty and
free of `','` (the split separator), `';'` (the regex terminator) and
line terminators. -/
def MimeParseable (m : List Char) : Prop :=
  m ≠ [] ∧ ∀ c ∈ m, c ≠ ',' ∧ c ≠ ';' ∧ isRegexLineTerminator c = false

instance (m : List Char) : Decidable (MimeParseable m) := by
  unfold MimeParseable; infer_instance

theorem dataUrl_decomp (m d : List Char) :
    dataColonHead ++ m ++ base64Marker ++ d =
      (dataColonHead ++ m ++ [';', 'b', 'a', 's', 'e', '6', '4']) ++
        ',' :: d := by
  simp [dataColonHead, base64Marker, List.append_assoc]

theorem matchMime_dataUrl {m : List Char} (hm : MimeParseable m) :
    matchMime (dataColonHead ++ m ++ [';', 'b', 'a', 's', 'e', '6', '4']) =
      some m := by
  rw [List.append_assoc]
  exact matchMime_dataHead
    (scanMimeGroup_append _ (fun c hc => ⟨(hm.2 c hc).2.1, (hm.2 c hc).2.2⟩))

theorem dataUrl_pre_no_comma {m : List Char} (hm : MimeParseable m) :
    ',' ∉ dataColonHead ++ m ++ [';', 'b', 'a', 's', 'e', '6', '4'] := by
  intro hc
  rcases List.mem_append.mp hc with hc' | hc'
  · rcases List.mem_append.mp hc' with hc'' | hc''
    · simp [dataColonHead] at hc''
    · exact absurd rfl (hm.2 ',' hc'').1
  · simp at hc'

theorem dataURLtoFile_success {pre payload m : List Char} {bs : List Nat}
    (hpre : ',' ∉ pre) (hpay : ',' ∉ payload)
    (hm : matchMime pre = some m) (hme : m ≠ [])
    (hb : atob payload = some bs) (nm : List Char) :
    dataURLtoFile (pre ++ ',' :: payload) nm =
      some { name := nm, mime := m, bytes := bs } := by
  have hie : m.isEmpty = false := by
    cases m with
    | nil => exact absurd rfl hme
    | cons a t => rfl
  unfold dataURLtoFile
  rw [splitOnComma_append payload hpre, splitOnComma_no_comma hpay]
  simp [hm, hie, hb]

theorem fileToPart_eq {f : File} (hm : MimeParseable f.mime) :
    fileToPart f = some { mimeType := f.mime, data := base64Encode f.bytes } := by
  have hie : f.mime.isEmpty = false := by
    cases hmime : f.mime with
    | nil => exact absurd hmime hm.1
    | cons a t => rfl
  simp only [fileToPart, readAsDataURL]
  rw [dataUrl_decomp,
    splitOnComma_append _ (dataUrl_pre_no_comma hm),
    splitOnComma_no_comma (base64Encode_no_comma f.bytes)]
  have hmm : matchMime (dataColonHead ++
      (f.mime ++ [';', 'b', 'a', 's', 'e', '6', '4'])) = some f.mime := by
    rw [← List.append_assoc]
    exact matchMime_dataUrl hm
  simp [hmm, hie, hm.1]

/-- C5: for every image resource with a parseable mime type, encoding it
with `fileToPart` yields `{ mimeType, data }` with the original mime
type, and decoding the corresponding data URL
`data:<mimeType>;base64,<data>` with `dataURLtoFile` yields a resource
with the original mime type and a byte-identical payload. -/
theorem c5_encode_decode_roundtrip (f : File) (nm : List Char)
    (hm : MimeParseable f.mime) (hb : ∀ b ∈ f.bytes, b < 256) :
    ∃ part, fileToPart f = some part ∧ part.mimeType = f.mime ∧
      dataURLtoFile (mkDataUrl part.mimeType part.data) nm =
        some { name := nm, mime := f.mime, bytes := f.bytes } := by
  refine ⟨_, fileToPart_eq hm, rfl, ?_⟩
  unfold mkDataUrl
  rw [dataUrl_decomp]
  exact dataURLtoFile_success (dataUrl_pre_no_comma hm)
    (base64Encode_no_comma f.bytes) (matchMime_dataUrl hm) hm.1
    (atob_base64Encode hb) nm

/-- A tiny concrete image resource used to instantiate the round-trip. -/
def c5File : File :=
  { name := ['p'], mime := ['i', 'm', 'g'], bytes := [0, 255, 7] }

theorem c5_encode_decode_roundtrip_witness :
    dataURLtoFile (mkDataUrl ['i', 'm', 'g'] (base64Encode [0, 255, 7]))
        ['n'] =
      some { name := ['n'], mime := ['i', 'm', 'g'], bytes := [0, 255, 7] } := by
  obtain ⟨part, hp, hmime, hdec⟩ :=
    c5_encode_decode_roundtrip c5File ['n'] (by decide) (by decide)
  have h2 : fileToPart c5File =
      some { mimeType := ['i', 'm', 'g'], data := base64Encode [0, 255, 7] } := by
    decide
  rw [h2] at hp
  have hpart : part =
      { mimeType := ['i', 'm', 'g'], data := base64Encode [0, 255, 7] } :=
    (Option.some.inj hp).symm
  rw [hpart] at hdec
  exact hdec

/-- A decodable string that does not carry the `data:...;base64,` head. -/
def c7BadUrl : List Char := [':', 'm', ';', ',', 'A', 'A']

/-- C7 counterexample: `dataURLtoFile` succeeds on a string that does not
carry the exact `data:<mimeType>;base64,` head, so the claim that decode
succeeds only on such strings is false. -/
theorem c7_decode_without_data_head :
    (dataURLtoFile c7BadUrl ['n']).isSome = true ∧
    ¬ ∃ mt payload,
        c7BadUrl = dataColonHead ++ mt ++ base64Marker ++ payload := by
  constructor
  · decide
  · rintro ⟨mt, payload, hbad⟩
    rw [dataUrl_decomp] at hbad
    simp [c7BadUrl, dataColonHead] at hbad

/-- C7 (amended): decode fails on every input without a comma and on
every input whose pre-comma segment has no parseable nonempty mime;
conversely any input `pre ++ ',' ++ payload` with a parseable nonempty
mime in `pre` and a valid base64 payload decodes, so the exact
`data:<mimeType>;base64,` head is not required. -/
theorem c7_decode_requires_comma_and_mime :
    (∀ s nm, ',' ∉ s → dataURLtoFile s nm = none) ∧
    (∀ pre rest nm, ',' ∉ pre →
      (matchMime pre = none ∨ matchMime pre = some []) →
      dataURLtoFile (pre ++ ',' :: rest) nm = none) ∧
    (∀ pre payload m bs nm, ',' ∉ pre → ',' ∉ payload →
      matchMime pre = some m → m ≠ [] → atob payload = some bs →
      dataURLtoFile (pre ++ ',' :: payload) nm =
        some { name := nm, mime := m, bytes := bs }) := by
  refine ⟨?_, ?_, ?_⟩
  · intro s nm h
    unfold dataURLtoFile
    rw [splitOnComma_no_comma h]
  · intro pre rest nm hpre hmm
    unfold dataURLtoFile
    rw [splitOnComma_append rest hpre]
    cases hsp : splitOnComma rest with
    | nil => exact absurd hsp (splitOnComma_ne_nil rest)
    | cons a1 t =>
      rcases hmm with hmm | hmm <;> simp [hmm]
  · intro pre payload m bs nm h1 h2 h3 h4 h5
    exact dataURLtoFile_success h1 h2 h3 h4 h5 nm

theorem c7_decode_requires_comma_and_mime_witness :
    dataURLtoFile ['a', 'b'] ['n'] = none ∧
    dataURLtoFile ([':', 'm', ';'] ++ ',' :: ['A', 'A']) ['n'] =
      some { name := ['n'], mime := ['m'], bytes := [0] } :=
  ⟨c7_decode_requires_comma_and_mime.1 ['a', 'b'] ['n'] (by decide),
   c7_decode_requires_comma_and_mime.2.2 [':', 'm', ';'] ['A', 'A'] ['m']
     [0] ['n'] (by decide) (by decide) (by decide) (by decide) (by decide)⟩

/-- C1: `handleApiResponse` evaluates a response in fixed priority order:
a truthy block reason always fails with the blocked-request error (even
when an inline image is present, since the whole response is quantified);
a non-blocked response with an inline image in the first candidate's
parts always succeeds with the `data:<mime>;base64,<data>` URL (even
when the finish reason is non-normal); the refusal error occurs only
with no block reason, no inline image, and a present non-`STOP` finish
reason; otherwise the no-image error is raised. -/
theorem c1_response_validator_priority (r : GenerateContentResponse) :
    (optStrTruthy (blockReasonOf r) = true →
      handleApiResponse r =
        .error (.blocked ((blockReasonOf r).getD []) (blockMessageOf r))) ∧
    (optStrTruthy (blockReasonOf r) = false →
      ∀ d, (imagePartFromResponse r).bind RespPart.inlineData = some d →
        handleApiResponse r = .ok (mkDataUrl d.mimeType d.data)) ∧
    (∀ s, handleApiResponse r = .error (.refused s) →
      optStrTruthy (blockReasonOf r) = false ∧
      (imagePartFromResponse r).bind RespPart.inlineData = none ∧
      finishReasonOf r = some s ∧ s ≠ stopStr ∧ s ≠ []) ∧
    (optStrTruthy (blockReasonOf r) = false →
      (imagePartFromResponse r).bind RespPart.inlineData = none →
      finishReasonBad (finishReasonOf r) = false →
      handleApiResponse r = .error (.noImage (textFeedbackOf r))) := by
  refine ⟨?_, ?_, ?_, ?_⟩
  · intro hb
    simp [handleApiResponse, hb]
  · intro hb d hd
    simp [handleApiResponse, hb, hd]
  · intro s hs
    unfold handleApiResponse at hs
    by_cases hb : optStrTruthy (blockReasonOf r) = true
    · rw [if_pos hb] at hs
      simp at hs
    · rw [if_neg hb] at hs
      cases himg : (imagePartFromResponse r).bind RespPart.inlineData with
      | some d => rw [himg] at hs; simp at hs
      | none =>
        rw [himg] at hs
        by_cases hf : finishReasonBad (finishReasonOf r) = true
        · rw [if_pos hf] at hs
          cases hfr : finishReasonOf r with
          | none => rw [hfr] at hf; simp [finishReasonBad] at hf
          | some t =>
            rw [hfr] at hf hs
            simp only [finishReasonBad, Bool.and_eq_true, Bool.not_eq_true',
              decide_eq_false_iff_not] at hf
            have hst : t = s := by
              simpa [Option.getD] using hs
            subst hst
            refine ⟨by simpa using hb, rfl, rfl, hf.2, ?_⟩
            intro hnil
            rw [hnil] at hf
            simp at hf
        · rw [if_neg hf] at hs
          simp at hs
  · intro hb himg hf
    simp [handleApiResponse, hb, himg, hf]

/-- A part carrying an inline image. -/
def c1ImagePart : RespPart :=
  { inlineData := some { mimeType := ['m'], data := ['A'] } }

/-- A blocked response that also carries an inline image. -/
def c1Resp : GenerateContentResponse :=
  { promptFeedback := some { blockReason := some ['S', 'A', 'F', 'E', 'T', 'Y'], blockReasonMessage := none },
    candidates := some [{ content := some { parts := some [c1ImagePart] }, finishReason := some stopStr }],
    text := none }

/-- A non-blocked response with an inline image and a non-`STOP` finish
reason. -/
def c1RespImage : GenerateContentResponse :=
  { promptFeedback := none,
    candidates := some [{ content := some { parts := some [c1ImagePart] }, finishReason := some ['I', 'M', 'A', 'G', 'E'] }],
    text := none }

theorem c1_response_validator_priority_witness :
    handleApiResponse c1Resp =
      .error (.blocked ['S', 'A', 'F', 'E', 'T', 'Y'] none) ∧
    handleApiResponse c1RespImage = .ok (mkDataUrl ['m'] ['A']) :=
  ⟨(c1_response_validator_priority c1Resp).1 (by decide),
   (c1_response_validator_priority c1RespImage).2.1 (by decide)
     { mimeType := ['m'], data := ['A'] } (by decide)⟩

/-- Whether the first candidate's parts contain an inline image. -/
def firstCandidateHasImage (r : GenerateContentResponse) : Bool :=
  match firstCandidateParts r with
  | some ps => ps.any (fun p => p.inlineData.isSome)
  | none => false

theorem imagePart_isSome_iff (r : GenerateContentResponse) :
    ((imagePartFromResponse r).bind RespPart.inlineData).isSome =
      firstCandidateHasImage r := by
  unfold imagePartFromResponse firstCandidateHasImage
  cases hps : firstCandidateParts r with
  | none => rfl
  | some ps =>
    simp only [Option.bind_eq_bind, Option.some_bind]
    cases hf : ps.find? (fun p => p.inlineData.isSome) with
    | none =>
      have hall := List.find?_eq_none.mp hf
      have : ps.any (fun p => p.inlineData.isSome) = false := by
        rw [List.any_eq_false]
        intro p hp
        simpa using hall p hp
      simp [this]
    | some part =>
      have hsome : part.inlineData.isSome = true := by
        have := List.find?_some hf
        simpa using this
      have hmem : part ∈ ps := List.mem_of_find?_eq_some hf
      have : ps.any (fun p => p.inlineData.isSome) = true :=
        List.any_eq_true.mpr ⟨part, hmem, hsome⟩
      rw [this]
      simpa using hsome

/-- C10: for every non-blocked response the validator succeeds exactly
when the first candidate's parts contain an inline image — an image in
any later candidate is ignored; a refusal error always reports the first
candidate's finish reason; and the whole result depends only on the
prompt feedback, the first candidate and the response text. -/
theorem c10_first_candidate_only (r : GenerateContentResponse)
    (hb : optStrTruthy (blockReasonOf r) = false) :
    ((∃ u, handleApiResponse r = .ok u) ↔ firstCandidateHasImage r = true) ∧
    (∀ s, handleApiResponse r = .error (.refused s) →
      finishReasonOf r = some s) ∧
    (∀ r2 : GenerateContentResponse,
      r2.promptFeedback = r.promptFeedback →
      firstCandidate r2 = firstCandidate r →
      r2.text = r.text →
      handleApiResponse r2 = handleApiResponse r) := by
  refine ⟨?_, ?_, ?_⟩
  · rw [← imagePart_isSome_iff]
    constructor
    · rintro ⟨u, hu⟩
      unfold handleApiResponse at hu
      rw [if_neg (by simp [hb])] at hu
      cases himg : (imagePartFromResponse r).bind RespPart.inlineData with
      | some d => rfl
      | none =>
        rw [himg] at hu
        by_cases hff : finishReasonBad (finishReasonOf r) = true <;>
          simp [hff] at hu
    · intro himg
      obtain ⟨d, hd⟩ := Option.isSome_iff_exists.mp himg
      refine ⟨mkDataUrl d.mimeType d.data, ?_⟩
      unfold handleApiResponse
      rw [if_neg (by simp [hb]), hd]
  · intro s hs
    unfold handleApiResponse at hs
    rw [if_neg (by simp [hb])] at hs
    cases himg : (imagePartFromResponse r).bind RespPart.inlineData with
    | some d => rw [himg] at hs; simp at hs
    | none =>
      rw [himg] at hs
      by_cases hf : finishReasonBad (finishReasonOf r) = true
      · rw [if_pos hf] at hs
        cases hfr : finishReasonOf r with
        | none => rw [hfr] at hf; simp [finishReasonBad] at hf
        | some t =>
          rw [hfr] at hs
          have hst : t = s := by simpa [Option.getD] using hs
          rw [hst]
      · rw [if_neg hf] at hs
        simp at hs
  · intro r2 hpf hfc htext
    have h1 : blockReasonOf r2 = blockReasonOf r := by
      unfold blockReasonOf; rw [hpf]
    have h2 : blockMessageOf r2 = blockMessageOf r := by
      unfold blockMessageOf; rw [hpf]
    have h3 : imagePartFromResponse r2 = imagePartFromResponse r := by
      unfold imagePartFromResponse firstCandidateParts; rw [hfc]
    have h4 : finishReasonOf r2 = finishReasonOf r := by
      unfold finishReasonOf; rw [hfc]
    have h5 : textFeedbackOf r2 = textFeedbackOf r := by
      unfold textFeedbackOf; rw [htext]
    unfold handleApiResponse
    rw [h1, h2, h3, h4, h5]

/-- A non-blocked response whose only inline image sits in the second
candidate: the validator ignores it. -/
def c10Resp : GenerateContentResponse :=
  { promptFeedback := none,
    candidates := some
      [{ content := some { parts := some [{ inlineData := none }] }, finishReason := some stopStr },
       { content := some { parts := some [c1ImagePart] }, finishReason := some stopStr }],
    text := none }

theorem c10_first_candidate_only_witness :
    ¬ ∃ u, handleApiResponse c10Resp = .ok u := fun h =>
  absurd ((c10_first_candidate_only c10Resp (by decide)).1.mp h) (by decide)

theorem histInv_appendToState {s : ImageState} (f : File) :
    HistInv (appendToState s f) := by
  unfold HistInv appendToState
  simp only [List.length_append, List.length_cons, List.length_nil]
  constructor <;> omega

theorem histInv_undoState {s : ImageState} (h : HistInv s) :
    HistInv (undoState s) := by
  obtain ⟨h0, h1⟩ := h
  unfold undoState
  split
  · refine ⟨?_, ?_⟩
    · show (0 : Int) ≤ s.historyIndex - 1
      omega
    · show s.historyIndex - 1 < (s.history.length : Int)
      omega
  · exact ⟨h0, h1⟩

theorem histInv_redoState {s : ImageState} (h : HistInv s) :
    HistInv (redoState s) := by
  obtain ⟨h0, h1⟩ := h
  unfold redoState
  split
  · rename_i hlt
    refine ⟨?_, ?_⟩
    · show (0 : Int) ≤ s.historyIndex + 1
      omega
    · show s.historyIndex + 1 < (s.history.length : Int)
      omega
  · exact ⟨h0, h1⟩

theorem histInv_applyHistOp {s : ImageState} (h : HistInv s) (o : HistOp) :
    HistInv (applyHistOp s o) := by
  cases o with
  | append f => exact histInv_appendToState f
  | undo => exact histInv_undoState h
  | redo => exact histInv_redoState h

theorem histInv_runHistOps {s : ImageState} (h : HistInv s)
    (ops : List HistOp) : HistInv (runHistOps s ops) := by
  induction ops generalizing s with
  | nil => exact h
  | cons o ops ih => exact ih (histInv_applyHistOp h o)

theorem undoState_history (s : ImageState) :
    (undoState s).history = s.history := by
  unfold undoState; split <;> rfl

theorem redoState_history (s : ImageState) :
    (redoState s).history = s.history := by
  unfold redoState; split <;> rfl

/-- C2: from any single-entry initial state, every interleaving of
append/undo/redo keeps the cursor inside `[0, length-1]`; undo is a
guarded no-op at cursor 0, redo at the last index; and only append
changes the history list. -/
theorem c2_history_invariant (f : File) (ops : List HistOp) :
    HistInv (runHistOps (initImageState f) ops) ∧
    (∀ s : ImageState, s.historyIndex = 0 → undoState s = s) ∧
    (∀ s : ImageState,
      s.historyIndex = (s.history.length : Int) - 1 → redoState s = s) ∧
    (∀ s : ImageState,
      (undoState s).history = s.history ∧ (redoState s).history = s.history) := by
  refine ⟨?_, ?_, ?_, ?_⟩
  · exact histInv_runHistOps (by constructor <;> simp [initImageState]) ops
  · intro s h
    unfold undoState
    rw [if_neg (by omega)]
  · intro s h
    unfold redoState
    rw [if_neg (by omega)]
  · intro s
    exact ⟨undoState_history s, redoState_history s⟩

theorem c2_history_invariant_witness :
    HistInv (runHistOps (initImageState c5File)
      [HistOp.append c5File, HistOp.undo, HistOp.undo, HistOp.redo,
       HistOp.redo]) ∧
    undoState (initImageState c5File) = initImageState c5File :=
  ⟨(c2_history_invariant c5File _).1,
   (c2_history_invariant c5File []).2.1 (initImageState c5File) rfl⟩

/-- C3: with a valid cursor `i`, appending truncates the history to the
first `i + 1` entries, appends the new image, and moves the cursor to
the new last index (`i + 1`), so entries after the cursor are discarded. -/
theorem c3_append_truncates (s : ImageState) (f : File) (h : HistInv s) :
    (appendToState s f).history =
      s.history.take (s.historyIndex.toNat + 1) ++ [f] ∧
    (appendToState s f).history.length = s.historyIndex.toNat + 2 ∧
    (appendToState s f).historyIndex = s.historyIndex + 1 ∧
    (appendToState s f).historyIndex =
      ((appendToState s f).history.length : Int) - 1 := by
  obtain ⟨h0, h1⟩ := h
  have htake : jsSliceTo s.history (s.historyIndex + 1) =
      s.history.take (s.historyIndex.toNat + 1) := by
    unfold jsSliceTo
    rw [if_neg (by omega)]
    congr 1
    omega
  have hlen : (s.history.take (s.historyIndex.toNat + 1)).length =
      s.historyIndex.toNat + 1 := by
    rw [List.length_take]
    omega
  refine ⟨?_, ?_, ?_, ?_⟩
  · unfold appendToState
    simp only [htake]
  · unfold appendToState
    simp only [htake, List.length_append, hlen, List.length_cons,
      List.length_nil]
  · unfold appendToState
    simp only [htake, List.length_append, hlen, List.length_cons,
      List.length_nil]
    omega
  · unfold appendToState
    simp only [htake, List.length_append, hlen, List.length_cons,
      List.length_nil]

/-- A second concrete image resource. -/
def c3FileB : File := { name := ['q'], mime := ['i', 'm', 'g'], bytes := [1] }

/-- A two-entry state with the cursor moved back to the first entry. -/
def c3State : ImageState :=
  { original := c5File, history := [c5File, c3FileB], historyIndex := 0 }

theorem c3_append_truncates_witness :
    (appendToState c3State c5File).history = [c5File, c5File] ∧
    (appendToState c3State c5File).historyIndex = 1 := by
  obtain ⟨hh, _, hi, _⟩ := c3_append_truncates c3State c5File (by decide)
  constructor
  · rw [hh]
    decide
  · rw [hi]
    decide

theorem redoN_from :
    ∀ (k j : Nat) (t : ImageState), t.historyIndex = (j : Int) →
      j + k < t.history.length →
      (redoN k t).history = t.history ∧
      (redoN k t).historyIndex = ((j + k : Nat) : Int) := by
  intro k
  induction k with
  | zero => intro j t hj _; exact ⟨rfl, by simpa using hj⟩
  | succ k ih =>
    intro j t hj hlt
    have hstep : redoState t = { t with historyIndex := t.historyIndex + 1 } := by
      unfold redoState
      rw [if_pos (by rw [hj]; omega)]
    have hidx : (redoState t).historyIndex = ((j + 1 : Nat) : Int) := by
      rw [hstep]
      show t.historyIndex + 1 = ((j + 1 : Nat) : Int)
      rw [hj]
      omega
    have hhist : (redoState t).history = t.history := redoState_history t
    have hlt2 : (j + 1) + k < (redoState t).history.length := by
      rw [hhist]; omega
    obtain ⟨ih1, ih2⟩ := ih (j + 1) (redoState t) hidx hlt2
    refine ⟨by rw [show redoN (k + 1) t = redoN k (redoState t) from rfl, ih1, hhist], ?_⟩
    rw [show redoN (k + 1) t = redoN k (redoState t) from rfl, ih2]
    congr 1
    omega

/-- C8: `resetToOriginal` sets the cursor to 0 without deleting history
entries, and `k` redos afterwards move the cursor to `k` with the
history intact, so at `k` equal to the prior cursor position the entry
under the cursor is exactly the entry active before the reset. -/
theorem c8_reset_then_redo (s : ImageState) (h : HistInv s) (k : Nat)
    (hk : k ≤ s.historyIndex.toNat) :
    (resetState s).history = s.history ∧
    (resetState s).historyIndex = 0 ∧
    (redoN k (resetState s)).history = s.history ∧
    (redoN k (resetState s)).historyIndex = (k : Int) ∧
    (k = s.historyIndex.toNat →
      listGet? (redoN k (resetState s)).history
          (redoN k (resetState s)).historyIndex.toNat =
        listGet? s.history s.historyIndex.toNat) := by
  obtain ⟨h0, h1⟩ := h
  have hbound : 0 + k < (resetState s).history.length := by
    show 0 + k < s.history.length
    omega
  obtain ⟨hh, hi⟩ := redoN_from k 0 (resetState s) rfl hbound
  have hh' : (redoN k (resetState s)).history = s.history := hh
  have hi' : (redoN k (resetState s)).historyIndex = (k : Int) := by
    rw [hi]; simp
  refine ⟨rfl, rfl, hh', hi', ?_⟩
  intro hkp
  rw [hh', hi', hkp]
  congr 1

/-- A three-entry state with the cursor on the last entry. -/
def c8State : ImageState :=
  { original := c5File, history := [c5File, c3FileB, c5File],
    historyIndex := 2 }

theorem c8_reset_then_redo_witness :
    (redoN 2 (resetState c8State)).history = c8State.history ∧
    (redoN 2 (resetState c8State)).historyIndex = (2 : Int) := by
  obtain ⟨_, _, hh, hi, _⟩ :=
    c8_reset_then_redo c8State (by decide) 2 (by decide)
  exact ⟨hh, hi⟩

theorem jsGetElem_nonneg {α : Type} {l : List α} {t : Int} {x : α}
    (h : jsGetElem l t = some x) : 0 ≤ t ∧ t.toNat < l.length := by
  unfold jsGetElem at h
  split at h
  · exact absurd h (by simp)
  · exact ⟨by omega, listGet?_lt_length h⟩

theorem addImageToHistory_get_nat (cur : List ImageState) (f : File)
    (t : Int) {u : Nat} (h : u ≠ t.toNat) :
    listGet? (addImageToHistory cur f t) u = listGet? cur u := by
  unfold addImageToHistory
  cases hj : jsGetElem cur t with
  | none => rfl
  | some st => exact listGet?_set_ne cur t.toNat u (appendToState st f) (fun hc => h hc.symm)

theorem addImageToHistory_get_int (cur : List ImageState) (f : File)
    {t t2 : Int} (h : t2 ≠ t) :
    jsGetElem (addImageToHistory cur f t) t2 = jsGetElem cur t2 := by
  cases hj : jsGetElem cur t with
  | none => unfold addImageToHistory; rw [hj]
  | some st =>
    have hnn := jsGetElem_nonneg hj
    unfold jsGetElem
    split
    · rfl
    · rename_i h2
      unfold addImageToHistory
      rw [hj]
      exact listGet?_set_ne cur t.toNat t2.toNat (appendToState st f)
        (fun hc => h (by omega))

theorem addImageToHistory_get_self {cur : List ImageState} {t : Int}
    {st : ImageState} (h : jsGetElem cur t = some st) (f : File) :
    listGet? (addImageToHistory cur f t) t.toNat =
      some (appendToState st f) := by
  unfold addImageToHistory
  rw [h]
  exact listGet?_set_self (appendToState st f) (jsGetElem_nonneg h).2

/-- A batch step that fully succeeds: the target has a current image, the
remote operation returns a URL and the URL decodes to a file. -/
def StepOK (images0 : List ImageState)
    (op : Nat → File → List Char → Except (List Char) (List Char))
    (names : Nat → List Char) (prompt : List Char) (i : Nat) (t : Int) :
    Prop :=
  ∃ st img url f, jsGetElem images0 t = some st ∧
    jsGetElem st.history st.historyIndex = some img ∧
    op i img prompt = .ok url ∧
    dataURLtoFile url (names i) = some f

/-- A batch step whose remote operation rejects. -/
def StepFails (images0 : List ImageState)
    (op : Nat → File → List Char → Except (List Char) (List Char))
    (prompt : List Char) (i : Nat) (t : Int) : Prop :=
  ∃ st img e, jsGetElem images0 t = some st ∧
    jsGetElem st.history st.historyIndex = some img ∧
    op i img prompt = .error e

theorem batchLoop_halts (images0 : List ImageState)
    (op : Nat → File → List Char → Except (List Char) (List Char))
    (names : Nat → List Char) (prompt : List Char) :
    ∀ (k : Nat) (targets : List Int) (i : Nat) (cur : List ImageState),
    (∀ j, j < k → ∃ t, listGet? targets j = some t ∧
      StepOK images0 op names prompt (i + j) t) →
    (∃ t, listGet? targets k = some t ∧
      StepFails images0 op prompt (i + k) t) →
    (targets.take (k + 1)).Nodup →
    (∀ j, j < k → ∀ t, listGet? targets j = some t →
      jsGetElem cur t = jsGetElem images0 t) →
    ∃ final e,
      batchLoop images0 op names prompt targets i cur =
        (final, some (.opFailed e)) ∧
      (∀ u : Nat, u ∉ (targets.take k).map Int.toNat →
        listGet? final u = listGet? cur u) ∧
      (∀ j, j < k → ∃ t st img url f, listGet? targets j = some t ∧
        jsGetElem images0 t = some st ∧
        jsGetElem st.history st.historyIndex = some img ∧
        op (i + j) img prompt = .ok url ∧
        dataURLtoFile url (names (i + j)) = some f ∧
        listGet? final t.toNat = some (appendToState st f)) := by
  intro k
  induction k with
  | zero =>
    intro targets i cur hok hfail hnd hagree
    obtain ⟨t, ht, st, img, e, hst, himg, hop⟩ := hfail
    rw [Nat.add_zero] at hop
    cases targets with
    | nil => simp [listGet?] at ht
    | cons t0 rest =>
      have ht0 : t0 = t := by simpa [listGet?] using ht
      subst ht0
      refine ⟨cur, e, ?_, fun u _ => rfl,
        fun j hj => absurd hj (Nat.not_lt_zero j)⟩
      simp only [batchLoop, hst, himg, hop]
  | succ k ih =>
    intro targets i cur hok hfail hnd hagree
    cases targets with
    | nil =>
      obtain ⟨t, ht, _⟩ := hfail
      simp [listGet?] at ht
    | cons t0 rest =>
      obtain ⟨t0x, ht0, hok0⟩ := hok 0 (Nat.succ_pos k)
      have he : t0 = t0x := by simpa [listGet?] using ht0
      rw [← he] at hok0
      obtain ⟨st, img, url, f, hst, himg, hop, hdec⟩ := hok0
      rw [Nat.add_zero] at hop hdec
      have hcur : jsGetElem cur t0 = some st := by
        rw [hagree 0 (Nat.succ_pos k) t0 rfl]
        exact hst
      have hnd2 : t0 ∉ rest.take (k + 1) ∧ (rest.take (k + 1)).Nodup := by
        rw [List.take_succ_cons] at hnd
        exact List.nodup_cons.mp hnd
      have hok' : ∀ j, j < k → ∃ t, listGet? rest j = some t ∧
          StepOK images0 op names prompt ((i + 1) + j) t := by
        intro j hj
        obtain ⟨t, ht, hsok⟩ := hok (j + 1) (Nat.succ_lt_succ hj)
        refine ⟨t, ht, ?_⟩
        have hidx : i + (j + 1) = (i + 1) + j := by omega
        rw [← hidx]
        exact hsok
      have hfail' : ∃ t, listGet? rest k = some t ∧
          StepFails images0 op prompt ((i + 1) + k) t := by
        obtain ⟨t, ht, hsf⟩ := hfail
        refine ⟨t, ht, ?_⟩
        have hidx : i + (k + 1) = (i + 1) + k := by omega
        rw [← hidx]
        exact hsf
      have hagree' : ∀ j, j < k → ∀ t, listGet? rest j = some t →
          jsGetElem (addImageToHistory cur f t0) t =
            jsGetElem images0 t := by
        intro j hj t ht
        have htk : t ∈ rest.take (k + 1) := by
          refine listGet?_mem (l := rest.take (k + 1)) (n := j) ?_
          rw [listGet?_take (Nat.lt_succ_of_lt hj)]
          exact ht
        have hne : t ≠ t0 := fun hc => hnd2.1 (hc ▸ htk)
        rw [addImageToHistory_get_int cur f hne]
        exact hagree (j + 1) (Nat.succ_lt_succ hj) t ht
      obtain ⟨final, e, heq, hout, hdone⟩ :=
        ih rest (i + 1) (addImageToHistory cur f t0) hok' hfail' hnd2.2 hagree'
      refine ⟨final, e, ?_, ?_, ?_⟩
      · simp only [batchLoop, hst, himg, hop, hdec]
        exact heq
      · intro u hu
        have hu' : u ≠ t0.toNat ∧ u ∉ (rest.take k).map Int.toNat := by
          constructor
          · intro hc
            refine hu ?_
            rw [List.take_succ_cons, List.map_cons, hc]
            exact List.mem_cons_self _ _
          · intro hc
            refine hu ?_
            rw [List.take_succ_cons, List.map_cons]
            exact List.mem_cons_of_mem _ hc
        rw [hout u hu'.2]
        exact addImageToHistory_get_nat cur f t0 hu'.1
      · intro j hj
        cases j with
        | zero =>
          have ht0nat : t0.toNat ∉ (rest.take k).map Int.toNat := by
            intro hmem
            obtain ⟨x, hx, hxe⟩ := List.mem_map.mp hmem
            obtain ⟨n, hn⟩ := listGet?_of_mem hx
            have hnk : n < k := by
              have := listGet?_lt_length hn
              rw [List.length_take] at this
              omega
            have hrn : listGet? rest n = some x := by
              rw [← listGet?_take (show n < k from hnk)]
              exact hn
            obtain ⟨t', ht', hsok⟩ := hok' n hnk
            have hte : t' = x := by
              rw [ht'] at hrn
              exact Option.some.inj hrn
            subst hte
            obtain ⟨st', img', url', f', hst', _⟩ := hsok
            have hx0 : 0 ≤ t' := (jsGetElem_nonneg hst').1
            have ht00 : 0 ≤ t0 := (jsGetElem_nonneg hst).1
            have hxt0 : t' = t0 := by omega
            have hmem2 : t' ∈ rest.take (k + 1) := by
              refine listGet?_mem (l := rest.take (k + 1)) (n := n) ?_
              rw [listGet?_take (Nat.lt_succ_of_lt hnk)]
              exact hrn
            exact hnd2.1 (hxt0 ▸ hmem2)
          refine ⟨t0, st, img, url, f, rfl, hst, himg,
            by rw [Nat.add_zero]; exact hop,
            by rw [Nat.add_zero]; exact hdec, ?_⟩
          rw [hout t0.toNat ht0nat]
          exact addImageToHistory_get_self hcur f
        | succ j =>
          have hjk : j < k := Nat.lt_of_succ_lt_succ hj
          obtain ⟨t, st', img', url', f', h1, h2, h3, h4, h5, h6⟩ :=
            hdone j hjk
          have hidx : i + (j + 1) = (i + 1) + j := by omega
          refine ⟨t, st', img', url', f', h1, h2, h3, ?_, ?_, h6⟩
          · rw [hidx]; exact h4
          · rw [hidx]; exact h5

theorem batchTargets_nodup (images : List ImageState) (a : Int) (ata : Bool) :
    (batchTargets images a ata).Nodup := by
  unfold batchTargets
  split
  · exact (List.nodup_range _).map (fun x y h => Int.ofNat.inj h)
  · simp

theorem appendToState_at_end (s : ImageState) (g : File)
    (h : s.historyIndex = (s.history.length : Int) - 1) :
    (appendToState s g).history = s.history ++ [g] := by
  show jsSliceTo s.history (s.historyIndex + 1) ++ [g] = s.history ++ [g]
  congr 1
  rw [h]
  unfold jsSliceTo
  rw [if_neg (by omega)]
  have h2 : ((s.history.length : Int) - 1 + 1).toNat = s.history.length := by
    omega
  rw [h2, List.take_length]

/-- C4: when the remote operation succeeds on the first `k` targets and
rejects on target `k`, the batch halts at `k` with a failure: each of
the first `k` targets' states has been replaced by exactly one
`appendToState` (one appended history entry; when the cursor was on the
last entry the history is exactly the old history plus the new file),
target `k` and all later targets keep their old state (no rollback of
the earlier appends), and every index outside the first `k` targets is
untouched. -/
theorem c4_batch_halts_without_rollback
    (images : List ImageState) (activeImageIndex : Int)
    (op : Nat → File → List Char → Except (List Char) (List Char))
    (names : Nat → List Char) (prompt : List Char) (applyToAll : Bool)
    (k : Nat)
    (hguard : (batchTargets images activeImageIndex applyToAll).any
      (fun i => decide (i < 0) || (jsGetElem images i).isNone) = false)
    (hok : ∀ j, j < k → ∃ t,
      listGet? (batchTargets images activeImageIndex applyToAll) j = some t ∧
      StepOK images op names prompt j t)
    (hfail : ∃ t,
      listGet? (batchTargets images activeImageIndex applyToAll) k = some t ∧
      StepFails images op prompt k t) :
    ∃ final e,
      handleApplyBatchOperation images activeImageIndex op names prompt
          applyToAll = (final, some (.opFailed e)) ∧
      (∀ j, j < k → ∃ t st img url f,
        listGet? (batchTargets images activeImageIndex applyToAll) j =
          some t ∧
        jsGetElem images t = some st ∧
        jsGetElem st.history st.historyIndex = some img ∧
        op j img prompt = .ok url ∧
        dataURLtoFile url (names j) = some f ∧
        listGet? final t.toNat = some (appendToState st f)) ∧
      (∀ j t, k ≤ j →
        listGet? (batchTargets images activeImageIndex applyToAll) j =
          some t →
        listGet? final t.toNat = listGet? images t.toNat) ∧
      (∀ u : Nat,
        u ∉ ((batchTargets images activeImageIndex applyToAll).take k).map
          Int.toNat →
        listGet? final u = listGet? images u) ∧
      (∀ (s : ImageState) (g : File),
        s.historyIndex = (s.history.length : Int) - 1 →
        (appendToState s g).history = s.history ++ [g]) := by
  have hval : ∀ x ∈ batchTargets images activeImageIndex applyToAll,
      0 ≤ x := by
    intro x hx
    have hfx := List.any_eq_false.mp hguard x hx
    simp only [Bool.or_eq_true, decide_eq_true_eq, not_or] at hfx
    have h1 := hfx.1
    omega
  have hnd : ((batchTargets images activeImageIndex applyToAll).take
      (k + 1)).Nodup :=
    (List.take_sublist _ _).nodup
      (batchTargets_nodup images activeImageIndex applyToAll)
  obtain ⟨final, e, heq, hout, hdone⟩ :=
    batchLoop_halts images op names prompt k
      (batchTargets images activeImageIndex applyToAll) 0 images
      (fun j hj => by
        obtain ⟨t, ht, hs⟩ := hok j hj
        exact ⟨t, ht, by rw [Nat.zero_add]; exact hs⟩)
      (by
        obtain ⟨t, ht, hs⟩ := hfail
        exact ⟨t, ht, by rw [Nat.zero_add]; exact hs⟩)
      hnd
      (fun _ _ _ _ => rfl)
  have happ : handleApplyBatchOperation images activeImageIndex op names
      prompt applyToAll =
      batchLoop images op names prompt
        (batchTargets images activeImageIndex applyToAll) 0 images := by
    simp only [handleApplyBatchOperation]
    rw [if_neg (by rw [hguard]; simp)]
  refine ⟨final, e, by rw [happ]; exact heq, ?_, ?_, hout, ?_⟩
  · intro j hj
    obtain ⟨t, st, img, url, f, h1, h2, h3, h4, h5, h6⟩ := hdone j hj
    rw [Nat.zero_add] at h4 h5
    exact ⟨t, st, img, url, f, h1, h2, h3, h4, h5, h6⟩
  · intro j t hkj hjt
    have htmem : t ∈ batchTargets images activeImageIndex applyToAll :=
      listGet?_mem hjt
    have ht0 : 0 ≤ t := hval t htmem
    have hnotin : t.toNat ∉
        ((batchTargets images activeImageIndex applyToAll).take k).map
          Int.toNat := by
      intro hmem
      obtain ⟨x, hx, hxe⟩ := List.mem_map.mp hmem
      have hx0 : 0 ≤ x := hval x (List.take_subset _ _ hx)
      have hxt : x = t := by omega
      subst hxt
      obtain ⟨n, hn⟩ := listGet?_of_mem hx
      have hnk : n < k := by
        have := listGet?_lt_length hn
        rw [List.length_take] at this
        omega
      have hnt : listGet? (batchTargets images activeImageIndex applyToAll)
          n = some x := by
        rw [← listGet?_take hnk]
        exact hn
      have := nodup_listGet?_inj
        (batchTargets_nodup images activeImageIndex applyToAll) hnt hjt
      omega
    exact hout t.toNat hnotin
  · exact appendToState_at_end

/-- A third concrete image resource. -/
def c4FileC : File := { name := ['c'], mime := ['m'], bytes := [2] }

/-- Three freshly uploaded images for the batch scenario. -/
def c4Images : List ImageState :=
  [initImageState c5File, initImageState c3FileB, initImageState c4FileC]

/-- A decodable result URL for the successful first step. -/
def c4Url : List Char := [':', 'm', ';', ',', 'A', 'A']

/-- The file the successful step's URL decodes to. -/
def c4NewFile : File := { name := ['n'], mime := ['m'], bytes := [0] }

/-- A remote operation that succeeds on its first call and rejects on
every later call. -/
def c4Op : Nat → File → List Char → Except (List Char) (List Char) :=
  fun i _ _ => if i = 0 then .ok c4Url else .error ['b', 'o', 'o', 'm']

/-- A fixed filename source. -/
def c4Names : Nat → List Char := fun _ => ['n']

theorem c4_batch_halts_without_rollback_witness :
    (handleApplyBatchOperation c4Images 0 c4Op c4Names [] true).snd ≠
      none ∧
    listGet? (handleApplyBatchOperation c4Images 0 c4Op c4Names [] true).fst
      1 = listGet? c4Images 1 ∧
    listGet? (handleApplyBatchOperation c4Images 0 c4Op c4Names [] true).fst
      2 = listGet? c4Images 2 ∧
    listGet? (handleApplyBatchOperation c4Images 0 c4Op c4Names [] true).fst
      0 = some (appendToState (initImageState c5File) c4NewFile) := by
  obtain ⟨final, e, heq, hdone, hlater, hout, _⟩ :=
    c4_batch_halts_without_rollback c4Images 0 c4Op c4Names [] true 1
      (by decide)
      (fun j hj => by
        have hj0 : j = 0 := by omega
        subst hj0
        exact ⟨0, by decide, initImageState c5File, c5File, c4Url, c4NewFile,
          by decide, by decide, rfl, by decide⟩)
      ⟨1, by decide, initImageState c3FileB, c3FileB, ['b', 'o', 'o', 'm'],
        by decide, by decide, rfl⟩
  rw [heq]
  refine ⟨by simp, hout 1 (by decide), hout 2 (by decide), ?_⟩
  obtain ⟨t, st, img, url, f, h1, h2, h3, h4, h5, h6⟩ :=
    hdone 0 (by omega)
  have ht : t = 0 := by
    have hc : listGet? (batchTargets c4Images 0 true) 0 = some 0 := by decide
    rw [hc] at h1
    exact (Option.some.inj h1).symm
  subst ht
  have hst : st = initImageState c5File := by
    have hc : jsGetElem c4Images (0 : Int) = some (initImageState c5File) := by
      decide
    rw [hc] at h2
    exact (Option.some.inj h2).symm
  subst hst
  have himg : img = c5File := by
    have hc : jsGetElem (initImageState c5File).history
        (initImageState c5File).historyIndex = some c5File := by decide
    rw [hc] at h3
    exact (Option.some.inj h3).symm
  subst himg
  have hurl : url = c4Url := by
    have hc : c4Op 0 c5File [] = .ok c4Url := rfl
    rw [hc] at h4
    injection h4 with hh
    exact hh.symm
  subst hurl
  have hf : f = c4NewFile := by
    have hc : dataURLtoFile c4Url (c4Names 0) = some c4NewFile := by decide
    rw [hc] at h5
    exact (Option.some.inj h5).symm
  subst hf
  exact h6

/-- C6 counterexample: with "apply to all" on an empty collection the
target set is empty, yet the batch reports no error at all (the result
is `([], none)`), instead of failing with the no-target error as the
claim states. -/
theorem c6_empty_batch_reports_no_error :
    handleApplyBatchOperation [] (-1) c4Op c4Names [] true = ([], none) := by
  decide

/-- C6 (amended): the batch fails fast with the no-target error exactly
when some target index is invalid (negative or without an image); in
that case the images are returned unchanged and the result does not
depend on the operation, the names or the prompt (no remote call, no
history change). With "apply to all" on an empty collection the target
set is empty and the batch changes nothing and calls nothing, but it
reports success (no error) rather than the no-target error. -/
theorem c6_invalid_target_fails_fast (images : List ImageState) (a : Int)
    (ata : Bool)
    (op op2 : Nat → File → List Char → Except (List Char) (List Char))
    (names names2 : Nat → List Char) (prompt prompt2 : List Char) :
    ((batchTargets images a ata).any
        (fun i => decide (i < 0) || (jsGetElem images i).isNone) = true →
      handleApplyBatchOperation images a op names prompt ata =
        (images, some .noTarget) ∧
      handleApplyBatchOperation images a op names prompt ata =
        handleApplyBatchOperation images a op2 names2 prompt2 ata) ∧
    (ata = true → images = [] →
      handleApplyBatchOperation images a op names prompt ata = ([], none) ∧
      handleApplyBatchOperation images a op names prompt ata =
        handleApplyBatchOperation images a op2 names2 prompt2 ata) := by
  constructor
  · intro hbad
    constructor
    · simp only [handleApplyBatchOperation]
      rw [if_pos hbad]
    · simp only [handleApplyBatchOperation]
      rw [if_pos hbad, if_pos hbad]
  · intro hata himg
    subst hata
    subst himg
    exact ⟨rfl, rfl⟩

theorem c6_invalid_target_fails_fast_witness :
    handleApplyBatchOperation c4Images (-1) c4Op c4Names [] false =
      (c4Images, some BatchFailure.noTarget) ∧
    handleApplyBatchOperation c4Images 9 c4Op c4Names [] false =
      (c4Images, some BatchFailure.noTarget) :=
  ⟨((c6_invalid_target_fails_fast c4Images (-1) false c4Op c4Op c4Names
      c4Names [] []).1 (by decide)).1,
   ((c6_invalid_target_fails_fast c4Images 9 false c4Op c4Op c4Names
      c4Names [] []).1 (by decide)).1⟩

/-- C9 counterexample: the claim's order of normalisation (strip quotes,
then trim) declares the response `"␣"` (quote, space, quote) empty, but
the code trims first and then strips quotes, so `generateRandomPrompt`
returns the one-space string instead of raising the empty-suggestion
error at that input. -/
theorem c9_strip_then_trim_is_wrong :
    jsTrim (stripQuotes [dquoteChar, spaceChar, dquoteChar]) = [] ∧
    generateRandomPrompt PromptContext.retouch
        (some [dquoteChar, spaceChar, dquoteChar]) =
      .ok [spaceChar] := by
  constructor
  · decide
  · rfl

theorem mem_of_mem_dropWhile {α : Type} (p : α → Bool) :
    ∀ {l : List α} {c : α}, c ∈ l.dropWhile p → c ∈ l := by
  intro l
  induction l with
  | nil => intro c h; simp at h
  | cons a l ih =>
    intro c h
    rw [List.dropWhile_cons] at h
    split at h
    · exact List.mem_cons_of_mem a (ih h)
    · exact h

theorem mem_jsTrim {t : List Char} {c : Char} (h : c ∈ jsTrim t) : c ∈ t := by
  unfold jsTrim at h
  rw [List.mem_reverse] at h
  have h2 := mem_of_mem_dropWhile _ h
  rw [List.mem_reverse] at h2
  exact mem_of_mem_dropWhile _ h2

/-- C9 (amended): for each of the four fixed contexts, a response text
that is all-whitespace or consists only of quote characters makes
`generateRandomPrompt` raise the empty-suggestion error; the response is
trimmed first and quote characters are stripped afterwards, before the
emptiness check. -/
theorem c9_empty_suggestion (ctx : PromptContext) (t : List Char)
    (h : (∀ c ∈ t, jsIsWhitespace c = true) ∨
      (∀ c ∈ t, c = dquoteChar ∨ c = squoteChar)) :
    generateRandomPrompt ctx (some t) = .error .emptySuggestion := by
  have hempty : stripQuotes (jsTrim t) = [] := by
    rcases h with hws | hq
    · have htrim : jsTrim t = [] := by
        unfold jsTrim
        have h1 : t.dropWhile jsIsWhitespace = [] :=
          List.dropWhile_eq_nil_iff.mpr (fun c hc => hws c hc)
        rw [h1]
        rfl
      rw [htrim]
      rfl
    · unfold stripQuotes
      rw [List.filter_eq_nil_iff]
      intro c hc
      rcases hq c (mem_jsTrim hc) with rfl | rfl <;> simp
  cases ctx <;> simp [generateRandomPrompt, hempty]

theorem c9_empty_suggestion_witness :
    generateRandomPrompt PromptContext.filter (some [spaceChar, spaceChar]) =
      .error .emptySuggestion ∧
    generateRandomPrompt PromptContext.background
        (some [dquoteChar, squoteChar]) =
      .error .emptySuggestion :=
  ⟨c9_empty_suggestion PromptContext.filter [spaceChar, spaceChar]
      (Or.inl (by decide)),
   c9_empty_suggestion PromptContext.background [dquoteChar, squoteChar]
      (Or.inr (by decide))⟩
